import Mathlib

/-!
Verification of the core of `cpp11-on-multicore`:
the `LightweightSemaphore` (src/common/sema.h) and the bit-field packing
system (src/common/bitfield.h), shallowly embedded in Lean 4.

Conventions of the embedding:
the atomic counter `m_count` (a signed, pointer-width integer) is modelled
as an unbounded `Int`; every public operation is modelled as a pure
function from the pre-state of the counter to the post-state, its return
value, and the list of calls it makes on the kernel semaphore `m_sema`.
Compare-and-swap loops are modelled in their sequential semantics: a
`compare_exchange` whose expected value was just loaded succeeds on the
first attempt.  The one genuinely concurrent point, returning from a
blocking `m_sema.wait()`, is modelled by an oracle parameter `cWake`
giving the counter value that concurrent `signal` calls left behind when
the blocked thread resumes.
-/

/-- A call made on the kernel semaphore `m_sema`: a blocking
`m_sema.wait()` or an `m_sema.signal(n)` releasing `n` waiters. -/
inductive KernelOp where
  | wait : KernelOp
  | post : Int → KernelOp
deriving DecidableEq

/-- Result of running one semaphore operation against counter pre-state:
return value, counter post-state, and the kernel-semaphore calls made. -/
structure StepResult (α : Type) where
  ret : α
  count : Int
  kernel : List KernelOp
deriving DecidableEq

namespace LightweightSemaphore

/-- The assertion guarding the constructor (sema.h:240):
`assert(initialCount >= 0)`. -/
def ctorPre (initialCount : Int) : Bool := initialCount ≥ 0

/-- `LightweightSemaphore::tryWait` (sema.h:243-252).  Loads `m_count`;
the CAS loop decrements it iff the loaded value is positive. -/
def tryWait (c : Int) : StepResult Bool :=
  let oldCount := c
  if oldCount > 0 then
    { ret := true, count := oldCount - 1, kernel := [] }
  else
    { ret := false, count := c, kernel := [] }

/-- `LightweightSemaphore::waitWithPartialSpinning` (sema.h:192-211).
The spin loop succeeds (sequentially, on its first iteration) iff the
count is positive; otherwise, after the spin budget, `fetch_sub(1)`
records the caller as a waiter and, the fetched value being `<= 0`,
the thread blocks on `m_sema.wait()`. -/
def waitWithPartialSpinning (c : Int) : StepResult Unit :=
  if c > 0 then
    { ret := (), count := c - 1, kernel := [] }
  else
    let oldCount := c
    if oldCount ≤ 0 then
      { ret := (), count := c - 1, kernel := [KernelOp.wait] }
    else
      { ret := (), count := c - 1, kernel := [] }

/-- `LightweightSemaphore::wait` (sema.h:254-258):
`if (!tryWait()) waitWithPartialSpinning();`. -/
def wait (c : Int) : StepResult Unit :=
  let t := tryWait c
  if t.ret then
    { ret := (), count := t.count, kernel := t.kernel }
  else
    let t2 := waitWithPartialSpinning t.count
    { ret := (), count := t2.count, kernel := t.kernel ++ t2.kernel }

/-- The assertion guarding `tryWaitMany` (sema.h:263):
`assert(max >= 0)`. -/
def tryWaitManyPre (max : Int) : Bool := max ≥ 0

/-- `LightweightSemaphore::tryWaitMany` (sema.h:261-272).  Loads
`m_count`; if positive, the CAS loop (sequentially one iteration)
replaces it by `oldCount > max ? oldCount - max : 0` and returns
the difference; otherwise returns 0. -/
def tryWaitMany (c max : Int) : StepResult Int :=
  let oldCount := c
  if oldCount > 0 then
    let newCount := if oldCount > max then oldCount - max else 0
    { ret := oldCount - newCount, count := newCount, kernel := [] }
  else
    { ret := 0, count := c, kernel := [] }

/-- `LightweightSemaphore::waitManyWithPartialSpinning` (sema.h:213-235).
Spin loop as in `waitWithPartialSpinning` but acquiring up to `max`;
on failure `fetch_sub(1)` records a waiter, the thread blocks
(`m_sema.wait()`), and after resuming with counter value `cWake` it
tops up with `tryWaitMany(max - 1)` when `max > 1`. -/
def waitManyWithPartialSpinning (c max cWake : Int) : StepResult Int :=
  if c > 0 then
    let newCount := if c > max then c - max else 0
    { ret := c - newCount, count := newCount, kernel := [] }
  else
    let oldCount := c
    let blockOps := if oldCount ≤ 0 then [KernelOp.wait] else []
    if max > 1 then
      let t := tryWaitMany cWake (max - 1)
      { ret := 1 + t.ret, count := t.count, kernel := blockOps ++ t.kernel }
    else
      { ret := 1, count := cWake, kernel := blockOps }

/-- `LightweightSemaphore::waitMany` (sema.h:275-282):
`result = tryWaitMany(max); if (result == 0 && max > 0)
result = waitManyWithPartialSpinning(max);`. -/
def waitMany (c max cWake : Int) : StepResult Int :=
  let t := tryWaitMany c max
  if t.ret = 0 ∧ max > 0 then
    let t2 := waitManyWithPartialSpinning t.count max cWake
    { ret := t2.ret, count := t2.count, kernel := t.kernel ++ t2.kernel }
  else
    t

/-- The assertion guarding `signal` (sema.h:286):
`assert(count >= 0)`. -/
def signalPre (count : Int) : Bool := count ≥ 0

/-- `LightweightSemaphore::signal` (sema.h:284-293).
`fetch_add(count)` fetches the old counter value; the number of waiters
to release is `-oldCount < count ? -oldCount : count`, and the kernel
semaphore is signalled that many times when it is positive. -/
def signal (c count : Int) : StepResult Unit :=
  let oldCount := c
  let toRelease := if -oldCount < count then -oldCount else count
  if toRelease > 0 then
    { ret := (), count := oldCount + count, kernel := [KernelOp.post toRelease] }
  else
    { ret := (), count := oldCount + count, kernel := [] }

/-- `LightweightSemaphore::availableApprox` (sema.h:295-299). -/
def availableApprox (c : Int) : Int :=
  let count := c
  if count > 0 then count else 0

end LightweightSemaphore

/-- Total number of tokens released to the kernel semaphore by a list of
kernel calls. -/
def postCount : List KernelOp → Int
  | [] => 0
  | KernelOp.wait :: rest => postCount rest
  | KernelOp.post n :: rest => n + postCount rest

/-- Number of blocking `m_sema.wait()` calls in a list of kernel calls. -/
def waitCount : List KernelOp → Nat
  | [] => 0
  | KernelOp.wait :: rest => waitCount rest + 1
  | KernelOp.post _ :: rest => waitCount rest

/-- Sequential specification of `tryWaitMany`, shared by several claims:
it acquires exactly `min max (max c 0)` tokens, decrements the counter by
that amount, and touches no kernel object. -/
theorem tryWaitMany_ret_count (c m : Int) (hm : 0 ≤ m) :
    (LightweightSemaphore.tryWaitMany c m).ret = min m (max c 0) ∧
    (LightweightSemaphore.tryWaitMany c m).count = c - min m (max c 0) ∧
    (LightweightSemaphore.tryWaitMany c m).kernel = [] := by
  simp only [LightweightSemaphore.tryWaitMany]
  split_ifs <;> refine ⟨by simp; omega, by simp; omega, rfl⟩

/-- C1: for a semaphore with logical count `c` and any `count >= 1`,
`signal(count)` leaves the logical count at `c + count`, issues exactly
`min count (max 0 (-c))` release tokens to the kernel semaphore (zero
when `c >= 0`), and never blocks the caller. -/
theorem signal_adds_and_releases_min (c count : Int) (hcount : 1 ≤ count) :
    (LightweightSemaphore.signal c count).count = c + count ∧
    postCount (LightweightSemaphore.signal c count).kernel = min count (max 0 (-c)) ∧
    waitCount (LightweightSemaphore.signal c count).kernel = 0 ∧
    (c < 0 ∨ postCount (LightweightSemaphore.signal c count).kernel = 0) := by
  simp only [LightweightSemaphore.signal]
  split_ifs with h <;> refine ⟨rfl, ?_, ?_, ?_⟩ <;> simp [postCount, waitCount] <;> omega

/-- Witness for C1 at the concrete state `c = -3`, `count = 2`. -/
theorem signal_adds_and_releases_min_witness :
    (LightweightSemaphore.signal (-3) 2).count = -3 + 2 ∧
    postCount (LightweightSemaphore.signal (-3) 2).kernel = min 2 (max 0 (-(-3))) ∧
    waitCount (LightweightSemaphore.signal (-3) 2).kernel = 0 ∧
    ((-3 : Int) < 0 ∨ postCount (LightweightSemaphore.signal (-3) 2).kernel = 0) :=
  signal_adds_and_releases_min (-3) 2 (by decide)

/-- C2: `tryWait()` succeeds exactly when the logical count is positive,
in which case it decrements the count by one; on failure the count is
untouched; it makes no kernel call at all. -/
theorem tryWait_succeeds_iff_positive (c : Int) :
    ((LightweightSemaphore.tryWait c).ret = true ↔ 0 < c) ∧
    (LightweightSemaphore.tryWait c).count = (if 0 < c then c - 1 else c) ∧
    (LightweightSemaphore.tryWait c).kernel = [] := by
  simp only [LightweightSemaphore.tryWait]
  split_ifs with h <;> simp_all

/-- C3: under its assertion `max >= 0`, `tryWaitMany(max)` returns
exactly `min max (max c 0)`, a value in `[0, max]`, decrements the
logical count by exactly that value, touches no kernel object, and
immediately afterwards `availableApprox()` is the old available count
minus the value acquired, and is not negative. -/
theorem tryWaitMany_clamps_and_available (c mx : Int)
    (hmx : LightweightSemaphore.tryWaitManyPre mx = true) :
    (LightweightSemaphore.tryWaitMany c mx).ret = min mx (max c 0) ∧
    0 ≤ (LightweightSemaphore.tryWaitMany c mx).ret ∧
    (LightweightSemaphore.tryWaitMany c mx).ret ≤ mx ∧
    (LightweightSemaphore.tryWaitMany c mx).count =
      c - (LightweightSemaphore.tryWaitMany c mx).ret ∧
    (LightweightSemaphore.tryWaitMany c mx).kernel = [] ∧
    LightweightSemaphore.availableApprox (LightweightSemaphore.tryWaitMany c mx).count =
      LightweightSemaphore.availableApprox c - (LightweightSemaphore.tryWaitMany c mx).ret ∧
    0 ≤ LightweightSemaphore.availableApprox (LightweightSemaphore.tryWaitMany c mx).count := by
  have hm : 0 ≤ mx := by
    simpa [LightweightSemaphore.tryWaitManyPre] using hmx
  obtain ⟨h1, h2, h3⟩ := tryWaitMany_ret_count c mx hm
  simp only [LightweightSemaphore.availableApprox]
  refine ⟨h1, by omega, by omega, by omega, h3, ?_, ?_⟩ <;> split_ifs <;> omega

/-- Witness for C3 at the concrete state `c = 5`, `max = 3`. -/
theorem tryWaitMany_clamps_and_available_witness :
    (LightweightSemaphore.tryWaitMany 5 3).ret = min 3 (max 5 0) ∧
    0 ≤ (LightweightSemaphore.tryWaitMany 5 3).ret ∧
    (LightweightSemaphore.tryWaitMany 5 3).ret ≤ 3 ∧
    (LightweightSemaphore.tryWaitMany 5 3).count =
      5 - (LightweightSemaphore.tryWaitMany 5 3).ret ∧
    (LightweightSemaphore.tryWaitMany 5 3).kernel = [] ∧
    LightweightSemaphore.availableApprox (LightweightSemaphore.tryWaitMany 5 3).count =
      LightweightSemaphore.availableApprox 5 - (LightweightSemaphore.tryWaitMany 5 3).ret ∧
    0 ≤ LightweightSemaphore.availableApprox (LightweightSemaphore.tryWaitMany 5 3).count :=
  tryWaitMany_clamps_and_available 5 3 (by decide)

/-- The blocking path of `waitMany`: for any pre-state and any counter
value observed on wakeup, `waitManyWithPartialSpinning(max)` with
`max > 0` returns a value in `[1, max]` and blocks at most once. -/
theorem waitManyWithPartialSpinning_spec (c mx cWake : Int) (hmx : 0 < mx) :
    1 ≤ (LightweightSemaphore.waitManyWithPartialSpinning c mx cWake).ret ∧
    (LightweightSemaphore.waitManyWithPartialSpinning c mx cWake).ret ≤ mx ∧
    waitCount (LightweightSemaphore.waitManyWithPartialSpinning c mx cWake).kernel ≤ 1 := by
  obtain ⟨hr, hc', hk⟩ := tryWaitMany_ret_count cWake (mx - 1) (by omega)
  simp only [LightweightSemaphore.waitManyWithPartialSpinning]
  split_ifs <;> refine ⟨?_, ?_, ?_⟩ <;> simp [waitCount, hk, hr] <;> omega

/-- C4: for `max > 0`, `waitMany(max)` returns a value in `[1, max]`
(the blocking path acquires one token and then tops up without blocking
again, so at most one kernel wait is ever issued); for `max = 0` it
returns `0` having made no kernel call at all. -/
theorem waitMany_bounds (c mx cWake : Int) (hmx : 0 < mx) :
    1 ≤ (LightweightSemaphore.waitMany c mx cWake).ret ∧
    (LightweightSemaphore.waitMany c mx cWake).ret ≤ mx ∧
    waitCount (LightweightSemaphore.waitMany c mx cWake).kernel ≤ 1 ∧
    (LightweightSemaphore.waitMany c 0 cWake).ret = 0 ∧
    (LightweightSemaphore.waitMany c 0 cWake).kernel = [] := by
  have main : 1 ≤ (LightweightSemaphore.waitMany c mx cWake).ret ∧
      (LightweightSemaphore.waitMany c mx cWake).ret ≤ mx ∧
      waitCount (LightweightSemaphore.waitMany c mx cWake).kernel ≤ 1 := by
    obtain ⟨h1, h2, h3⟩ := tryWaitMany_ret_count c mx (le_of_lt hmx)
    simp only [LightweightSemaphore.waitMany]
    split_ifs with h
    · obtain ⟨s1, s2, s3⟩ := waitManyWithPartialSpinning_spec
        (LightweightSemaphore.tryWaitMany c mx).count mx cWake hmx
      refine ⟨s1, s2, ?_⟩
      show waitCount ((LightweightSemaphore.tryWaitMany c mx).kernel ++ _) ≤ 1
      rw [h3, List.nil_append]
      exact s3
    · have hne : ¬((LightweightSemaphore.tryWaitMany c mx).ret = 0) := fun hh => h ⟨hh, hmx⟩
      refine ⟨by omega, by omega, ?_⟩
      rw [h3]
      simp [waitCount]
  have zero : (LightweightSemaphore.waitMany c 0 cWake).ret = 0 ∧
      (LightweightSemaphore.waitMany c 0 cWake).kernel = [] := by
    obtain ⟨h1, h2, h3⟩ := tryWaitMany_ret_count c 0 le_rfl
    simp only [LightweightSemaphore.waitMany]
    split_ifs with h
    · exact absurd h.2 (by omega)
    · exact ⟨by omega, h3⟩
  exact ⟨main.1, main.2.1, main.2.2, zero.1, zero.2⟩

/-- Witness for C4 at the concrete state `c = 0`, `max = 2`, wakeup
counter `1`. -/
theorem waitMany_bounds_witness :
    1 ≤ (LightweightSemaphore.waitMany 0 2 1).ret ∧
    (LightweightSemaphore.waitMany 0 2 1).ret ≤ 2 ∧
    waitCount (LightweightSemaphore.waitMany 0 2 1).kernel ≤ 1 ∧
    (LightweightSemaphore.waitMany 0 0 1).ret = 0 ∧
    (LightweightSemaphore.waitMany 0 0 1).kernel = [] :=
  waitMany_bounds 0 2 1 (by decide)

/-- C9 counterexample: the assertion guarding `signal` (sema.h:286) is
`assert(count >= 0)`, so the call `signal(0)` — whose argument is `< 1` —
passes the assertion and executes normally (adds nothing, makes no
kernel call), contradicting the claim that every `count < 1` is a
contract violation detected by the assertion. -/
theorem signal_zero_passes_assertion :
    (0 : Int) < 1 ∧ LightweightSemaphore.signalPre 0 = true ∧
    (LightweightSemaphore.signal 7 0).count = 7 ∧
    (LightweightSemaphore.signal 7 0).kernel = [] := by decide

/-- C9 (amended): the precondition of `signal` asserted at the call site
is `count >= 0`, not `count >= 1`: the assertion accepts exactly the
nonnegative counts, and the accepted borderline call `signal(0)` leaves
the logical count unchanged and issues no kernel operation. -/
theorem signal_assertion_nonneg (count c : Int) :
    (LightweightSemaphore.signalPre count = true ↔ 0 ≤ count) ∧
    (LightweightSemaphore.signal c 0).count = c ∧
    (LightweightSemaphore.signal c 0).kernel = [] := by
  refine ⟨by simp [LightweightSemaphore.signalPre], ?_, ?_⟩ <;>
    simp only [LightweightSemaphore.signal] <;>
    split_ifs <;>
    first
      | rfl
      | (show c + 0 = c; omega)
      | (exfalso; omega)

/-- C10: from a nonnegative logical count, the non-blocking acquisition
operations keep it nonnegative — `tryWait` decrements only from a
strictly positive count, `tryWaitMany` clamps its decrement at zero —
and a negative post-count can arise only on the blocking paths of
`wait`, via the unconditional `fetch_sub(1)` that records a pending
waiter before blocking on the kernel semaphore. -/
theorem nonblocking_preserves_nonneg (c mx : Int) (hc : 0 ≤ c) (hmx : 0 ≤ mx) :
    0 ≤ (LightweightSemaphore.tryWait c).count ∧
    ((LightweightSemaphore.tryWait c).count = c ∨
      (0 < c ∧ (LightweightSemaphore.tryWait c).count = c - 1)) ∧
    0 ≤ (LightweightSemaphore.tryWaitMany c mx).count ∧
    (0 ≤ (LightweightSemaphore.waitWithPartialSpinning c).count ∨
      (LightweightSemaphore.waitWithPartialSpinning c).kernel = [KernelOp.wait]) ∧
    (0 ≤ (LightweightSemaphore.wait c).count ∨
      waitCount (LightweightSemaphore.wait c).kernel = 1) := by
  obtain ⟨h1, h2, h3⟩ := tryWaitMany_ret_count c mx hmx
  refine ⟨?_, ?_, by omega, ?_, ?_⟩
  · simp only [LightweightSemaphore.tryWait]
    split_ifs <;> simp <;> omega
  · simp only [LightweightSemaphore.tryWait]
    split_ifs with h
    · exact Or.inr ⟨h, rfl⟩
    · exact Or.inl rfl
  · simp only [LightweightSemaphore.waitWithPartialSpinning]
    split_ifs with h h'
    · exact Or.inl (show 0 ≤ c - 1 by omega)
    · exact Or.inr rfl
    · exact absurd hc (by omega)
  · by_cases h : c > 0
    · refine Or.inl ?_
      simp only [LightweightSemaphore.wait, LightweightSemaphore.tryWait, if_pos h]
      show 0 ≤ c - 1
      omega
    · refine Or.inr ?_
      simp only [LightweightSemaphore.wait, LightweightSemaphore.tryWait,
        LightweightSemaphore.waitWithPartialSpinning, if_neg h]
      have hc0 : c ≤ 0 := by omega
      simp [hc0, waitCount, h]

/-- Witness for C10 at the concrete state `c = 0`, `max = 2`. -/
theorem nonblocking_preserves_nonneg_witness :
    0 ≤ (LightweightSemaphore.tryWait 0).count ∧
    ((LightweightSemaphore.tryWait 0).count = 0 ∨
      (0 < (0 : Int) ∧ (LightweightSemaphore.tryWait 0).count = 0 - 1)) ∧
    0 ≤ (LightweightSemaphore.tryWaitMany 0 2).count ∧
    (0 ≤ (LightweightSemaphore.waitWithPartialSpinning 0).count ∨
      (LightweightSemaphore.waitWithPartialSpinning 0).kernel = [KernelOp.wait]) ∧
    (0 ≤ (LightweightSemaphore.wait 0).count ∨
      waitCount (LightweightSemaphore.wait 0).kernel = 1) :=
  nonblocking_preserves_nonneg 0 2 (by decide) (by decide)

/-!
Bit-field packing system (src/common/bitfield.h).

The backing word is an unsigned integer of `W = 8 * sizeof(T)` bits,
modelled as a `Nat` together with the invariant `value < 2 ^ W`; every
assignment back into the word truncates modulo `2 ^ W`, exactly as
storing into the C++ member `T value` does.  Template parameters
`Offset`, `Bits`, `BaseOffset`, `BitsPerItem`, `NumItems` become `Nat`
arguments.
-/

namespace BitFieldMember

/-- `static_assert` conditions of `BitFieldMember` (bitfield.h:34-35):
`Offset + Bits <= sizeof(T)*8` and `Bits < sizeof(T)*8`.  A
declaration compiles exactly when this holds. -/
def accepted (W Offset Bits : Nat) : Bool :=
  decide (Offset + Bits ≤ W) && decide (Bits < W)

/-- `Maximum = (T(1) << Bits) - 1` (bitfield.h:40). -/
def Maximum (Bits : Nat) : Nat := (1 <<< Bits) - 1

/-- `Mask = Maximum << Offset` (bitfield.h:41). -/
def Mask (Offset Bits : Nat) : Nat := Maximum Bits <<< Offset

/-- `BitFieldMember::get` (bitfield.h:51-54):
`(value >> Offset) & Maximum`. -/
def get (Offset Bits value : Nat) : Nat := (value >>> Offset) &&& Maximum Bits

/-- The assertion guarding `set` (bitfield.h:58): `assert(v <= Maximum)`. -/
def setPre (Bits v : Nat) : Bool := decide (v ≤ Maximum Bits)

/-- `BitFieldMember::set` (bitfield.h:56-60):
`value = (value & ~Mask) | (v << Offset)`. -/
def set (W Offset Bits value v : Nat) : Nat :=
  ((value &&& ((2 ^ W - 1) ^^^ Mask Offset Bits)) ||| (v <<< Offset)) % 2 ^ W

/-- `BitFieldMember::setWrapped` (bitfield.h:62-65):
`value = (value & ~Mask) | ((v & Maximum) << Offset)`. -/
def setWrapped (W Offset Bits value v : Nat) : Nat :=
  ((value &&& ((2 ^ W - 1) ^^^ Mask Offset Bits)) ||| ((v &&& Maximum Bits) <<< Offset)) % 2 ^ W

/-- The assertion guarding `add` (bitfield.h:69):
`assert(get() + v <= Maximum)`. -/
def addPre (Offset Bits value v : Nat) : Bool :=
  decide (get Offset Bits value + v ≤ Maximum Bits)

/-- `BitFieldMember::add` (bitfield.h:67-71): `value += v << Offset`,
the addition wrapping at the word width. -/
def add (W Offset Bits value v : Nat) : Nat :=
  (value + (v <<< Offset)) % 2 ^ W

/-- `BitFieldMember::addWrapped` (bitfield.h:73-76):
`value = (value & ~Mask) | ((value + (v << Offset)) & Mask)`. -/
def addWrapped (W Offset Bits value v : Nat) : Nat :=
  ((value &&& ((2 ^ W - 1) ^^^ Mask Offset Bits)) |||
    (((value + (v <<< Offset)) % 2 ^ W) &&& Mask Offset Bits)) % 2 ^ W

/-- The assertion guarding `sub` (bitfield.h:80): `assert(get() >= v)`. -/
def subPre (Offset Bits value v : Nat) : Bool :=
  decide (get Offset Bits value ≥ v)

/-- `BitFieldMember::sub` (bitfield.h:78-82): `value -= v << Offset`,
the subtraction wrapping at the word width. -/
def sub (W Offset Bits value v : Nat) : Nat :=
  (value + (2 ^ W - (v <<< Offset) % 2 ^ W)) % 2 ^ W

/-- `BitFieldMember::subWrapped` (bitfield.h:84-87):
`value = (value & ~Mask) | ((value - (v << Offset)) & Mask)`. -/
def subWrapped (W Offset Bits value v : Nat) : Nat :=
  ((value &&& ((2 ^ W - 1) ^^^ Mask Offset Bits)) |||
    (((value + (2 ^ W - (v <<< Offset) % 2 ^ W)) % 2 ^ W) &&& Mask Offset Bits)) % 2 ^ W

end BitFieldMember

namespace BitFieldArray

/-- `static_assert` conditions of `BitFieldArray` (bitfield.h:97-98):
`BaseOffset + BitsPerItem * NumItems <= sizeof(T)*8` and
`BitsPerItem < sizeof(T)*8`. -/
def accepted (W BaseOffset BitsPerItem NumItems : Nat) : Bool :=
  decide (BaseOffset + BitsPerItem * NumItems ≤ W) && decide (BitsPerItem < W)

/-- `Maximum = (T(1) << BitsPerItem) - 1` (bitfield.h:103). -/
def Maximum (BitsPerItem : Nat) : Nat := (1 <<< BitsPerItem) - 1

/-- The assertion guarding `offset` (bitfield.h:113):
`assert(i >= 0 && i < NumItems)` (the lower bound is vacuous here). -/
def indexPre (NumItems i : Nat) : Bool := decide (i < NumItems)

/-- `BitFieldArray::offset` (bitfield.h:111-115):
`BaseOffset + BitsPerItem * i`. -/
def offset (BaseOffset BitsPerItem i : Nat) : Nat := BaseOffset + BitsPerItem * i

/-- `BitFieldArray::mask` (bitfield.h:117): `Maximum << offset(i)`. -/
def mask (BaseOffset BitsPerItem i : Nat) : Nat :=
  Maximum BitsPerItem <<< offset BaseOffset BitsPerItem i

/-- `BitFieldArray::get` (bitfield.h:120-123):
`(value >> offset(i)) & Maximum`. -/
def get (BaseOffset BitsPerItem value i : Nat) : Nat :=
  (value >>> offset BaseOffset BitsPerItem i) &&& Maximum BitsPerItem

/-- `BitFieldArray::set` (bitfield.h:125-129):
`value = (value & ~mask(i)) | (v << offset(i))`. -/
def set (W BaseOffset BitsPerItem value i v : Nat) : Nat :=
  ((value &&& ((2 ^ W - 1) ^^^ mask BaseOffset BitsPerItem i)) |||
    (v <<< offset BaseOffset BitsPerItem i)) % 2 ^ W

/-- `BitFieldArray::setWrapped` (bitfield.h:131-134):
`value = (value & ~mask(i)) | ((v & Maximum) << offset(i))`. -/
def setWrapped (W BaseOffset BitsPerItem value i v : Nat) : Nat :=
  ((value &&& ((2 ^ W - 1) ^^^ mask BaseOffset BitsPerItem i)) |||
    ((v &&& Maximum BitsPerItem) <<< offset BaseOffset BitsPerItem i)) % 2 ^ W

/-- `BitFieldArray::add` (bitfield.h:136-140): `value += v << offset(i)`. -/
def add (W BaseOffset BitsPerItem value i v : Nat) : Nat :=
  (value + (v <<< offset BaseOffset BitsPerItem i)) % 2 ^ W

/-- `BitFieldArray::addWrapped` (bitfield.h:142-146):
`value = (value & ~m) | ((value + (v << offset(i))) & m)` with
`m = mask(i)`. -/
def addWrapped (W BaseOffset BitsPerItem value i v : Nat) : Nat :=
  ((value &&& ((2 ^ W - 1) ^^^ mask BaseOffset BitsPerItem i)) |||
    (((value + (v <<< offset BaseOffset BitsPerItem i)) % 2 ^ W) &&&
      mask BaseOffset BitsPerItem i)) % 2 ^ W

/-- `BitFieldArray::sub` (bitfield.h:148-152): `value -= v << offset(i)`. -/
def sub (W BaseOffset BitsPerItem value i v : Nat) : Nat :=
  (value + (2 ^ W - (v <<< offset BaseOffset BitsPerItem i) % 2 ^ W)) % 2 ^ W

/-- `BitFieldArray::subWrapped` (bitfield.h:154-158):
`value = (value & ~m) | ((value - (v << offset(i))) & m)` with
`m = mask(i)`. -/
def subWrapped (W BaseOffset BitsPerItem value i v : Nat) : Nat :=
  ((value &&& ((2 ^ W - 1) ^^^ mask BaseOffset BitsPerItem i)) |||
    (((value + (2 ^ W - (v <<< offset BaseOffset BitsPerItem i) % 2 ^ W)) % 2 ^ W) &&&
      mask BaseOffset BitsPerItem i)) % 2 ^ W

end BitFieldArray

example : BitFieldMember.get 4 8 (BitFieldMember.set 32 4 8 0xdeadbeef 0x5c) = 0x5c := by decide
example : BitFieldMember.get 4 8 (BitFieldMember.setWrapped 32 4 8 0 0x1ff) = 0xff := by decide
example : BitFieldArray.get 0 4 (BitFieldArray.set 32 0 4 0 5 7) 5 = 7 := by decide
example : BitFieldArray.get 0 4 (BitFieldArray.set 32 0 4 0 5 7) 3 = 0 := by decide
example : BitFieldMember.accepted 32 0 0 = true := by decide
example : BitFieldMember.sub 32 4 8 (BitFieldMember.set 32 4 8 0 3) 1 = BitFieldMember.set 32 4 8 0 2 := by decide

namespace BitFieldMember

theorem Maximum_eq (B : Nat) : Maximum B = 2 ^ B - 1 := by
  simp [Maximum, Nat.shiftLeft_eq]

theorem testBit_Maximum (B j : Nat) : (Maximum B).testBit j = decide (j < B) := by
  rw [Maximum_eq]
  exact Nat.testBit_two_pow_sub_one B j

theorem testBit_Mask (O B j : Nat) :
    (Mask O B).testBit j = (decide (O ≤ j) && decide (j - O < B)) := by
  simp [Mask, Nat.testBit_shiftLeft, testBit_Maximum, ge_iff_le]

theorem Mask_testBit_eq_false_iff (O B j : Nat) :
    (Mask O B).testBit j = false ↔ (j < O ∨ O + B ≤ j) := by
  rw [testBit_Mask]
  by_cases h1 : O ≤ j <;> by_cases h2 : j - O < B <;> simp [h1, h2] <;> omega

theorem testBit_get (O B value j : Nat) :
    (get O B value).testBit j = (value.testBit (O + j) && decide (j < B)) := by
  simp [get, Nat.testBit_and, Nat.testBit_shiftRight, testBit_Maximum]

theorem get_eq_div_mod (O B value : Nat) : get O B value = value / 2 ^ O % 2 ^ B := by
  simp only [get, Maximum_eq]
  rw [Nat.and_pow_two_sub_one_eq_mod, Nat.shiftRight_eq_div_pow]

/-- Two numbers with the same low `O` bits and the same bits above
`O + B` agree on every bit outside the field mask. -/
theorem frame_of_mod_div {O B x y : Nat}
    (hmod : x % 2 ^ O = y % 2 ^ O) (hdiv : x / 2 ^ (O + B) = y / 2 ^ (O + B)) :
    ∀ j, (Mask O B).testBit j = false → x.testBit j = y.testBit j := by
  intro j hj
  rw [Mask_testBit_eq_false_iff] at hj
  rcases hj with hj | hj
  · have hx := congrArg (fun z => z.testBit j) hmod
    simpa [Nat.testBit_mod_two_pow, hj] using hx
  · have hx : x.testBit j = (x >>> (O + B)).testBit (j - (O + B)) := by
      rw [Nat.testBit_shiftRight]
      congr 1
      omega
    have hy : y.testBit j = (y >>> (O + B)).testBit (j - (O + B)) := by
      rw [Nat.testBit_shiftRight]
      congr 1
      omega
    rw [hx, hy, Nat.shiftRight_eq_div_pow, Nat.shiftRight_eq_div_pow, hdiv]

theorem add_div_of_bound {K a b : Nat} (hK : 0 < K) (h : a % K + b < K) :
    (a + b) / K = a / K := by
  conv_lhs => rw [← Nat.div_add_mod a K]
  rw [Nat.add_assoc, Nat.mul_add_div hK, Nat.div_eq_of_lt h, Nat.add_zero]

theorem sub_div_of_bound {K a b : Nat} (hK : 0 < K) (h : b ≤ a % K) :
    (a - b) / K = a / K := by
  have hm : a % K < K := Nat.mod_lt a hK
  conv_lhs => rw [← Nat.div_add_mod a K]
  rw [Nat.add_sub_assoc h, Nat.mul_add_div hK,
    Nat.div_eq_of_lt (show a % K - b < K by omega), Nat.add_zero]

theorem sub_multiple_mod {n a b : Nat} (hdvd : n ∣ b) (hle : b ≤ a) :
    (a - b) % n = a % n := by
  obtain ⟨t, rfl⟩ := hdvd
  have h2 : a - n * t + n * t = a := by omega
  conv_rhs => rw [← h2]
  rw [Nat.add_mul_mod_self_left]

theorem mod_split (O B value : Nat) :
    value % 2 ^ (O + B) = value / 2 ^ O % 2 ^ B * 2 ^ O + value % 2 ^ O := by
  have h1 : value % (2 ^ O * 2 ^ B) / 2 ^ O = value / 2 ^ O % 2 ^ B :=
    Nat.mod_mul_right_div_self value (2 ^ O) (2 ^ B)
  have h2 : value % (2 ^ O * 2 ^ B) % 2 ^ O = value % 2 ^ O :=
    Nat.mod_mod_of_dvd value ⟨2 ^ B, rfl⟩
  have h3 := Nat.div_add_mod (value % (2 ^ O * 2 ^ B)) (2 ^ O)
  rw [h1, h2, Nat.mul_comm] at h3
  rw [Nat.pow_add]
  exact h3.symm

/-- When the field value plus the increment still fits in the field, the
addition stays strictly below the next field boundary. -/
theorem field_bound_add {O B value v : Nat}
    (hpre : value / 2 ^ O % 2 ^ B + v ≤ 2 ^ B - 1) :
    value % 2 ^ (O + B) + v * 2 ^ O < 2 ^ (O + B) := by
  have hO : 0 < 2 ^ O := Nat.two_pow_pos O
  have hB : 0 < 2 ^ B := Nat.two_pow_pos B
  have hm : value % 2 ^ O < 2 ^ O := Nat.mod_lt value hO
  rw [mod_split, Nat.pow_add]
  have hmul : (value / 2 ^ O % 2 ^ B + v) * 2 ^ O ≤ (2 ^ B - 1) * 2 ^ O :=
    Nat.mul_le_mul_right _ hpre
  have hsub : (2 ^ B - 1) * 2 ^ O = 2 ^ O * 2 ^ B - 2 ^ O := by
    rw [Nat.sub_mul, Nat.one_mul, Nat.mul_comm]
  have hle : 2 ^ O ≤ 2 ^ O * 2 ^ B := Nat.le_mul_of_pos_right _ hB
  rw [Nat.add_mul] at hmul
  omega

theorem field_bound_sub {O B value v : Nat}
    (hpre : v ≤ value / 2 ^ O % 2 ^ B) :
    v * 2 ^ O ≤ value % 2 ^ (O + B) := by
  rw [mod_split]
  have := Nat.mul_le_mul_right (2 ^ O) hpre
  omega

/-- An increment confined below the next field boundary cannot overflow
the word. -/
theorem no_carry_lt {W O B value s : Nat} (hOB : O + B ≤ W) (hv : value < 2 ^ W)
    (hs : value % 2 ^ (O + B) + s < 2 ^ (O + B)) : value + s < 2 ^ W := by
  have hK : 0 < 2 ^ (O + B) := Nat.two_pow_pos _
  have hWeq : 2 ^ W = 2 ^ (O + B) * 2 ^ (W - (O + B)) := by
    rw [← Nat.pow_add]
    congr 1
    omega
  have hdivlt : value / 2 ^ (O + B) < 2 ^ (W - (O + B)) := by
    rw [Nat.div_lt_iff_lt_mul hK]
    calc value < 2 ^ W := hv
      _ = 2 ^ (W - (O + B)) * 2 ^ (O + B) := by rw [hWeq, Nat.mul_comm]
  have h3 := Nat.div_add_mod value (2 ^ (O + B))
  have hfin : (value / 2 ^ (O + B) + 1) * 2 ^ (O + B) ≤
      2 ^ (W - (O + B)) * 2 ^ (O + B) := Nat.mul_le_mul_right _ (by omega)
  rw [Nat.add_mul, Nat.one_mul] at hfin
  rw [Nat.mul_comm] at h3
  calc value + s < 2 ^ (W - (O + B)) * 2 ^ (O + B) := by omega
    _ = 2 ^ W := by rw [hWeq, Nat.mul_comm]

/-- The word-wrapped subtraction `value - s` computed by the C++ code,
resolved to the ordinary difference when `s <= value`. -/
theorem wrap_sub_eq {W value s : Nat} (hv : value < 2 ^ W) (hs : s < 2 ^ W)
    (hle : s ≤ value) : (value + (2 ^ W - s % 2 ^ W)) % 2 ^ W = value - s := by
  rw [Nat.mod_eq_of_lt hs]
  have h1 : value + (2 ^ W - s) = value - s + 2 ^ W := by omega
  rw [h1, Nat.add_mod_right]
  exact Nat.mod_eq_of_lt (by omega)

/-- Frame property of every masked update `(value & ~Mask) | inner`:
outside the mask nothing changes, provided `inner` has no bits there. -/
theorem masked_or_frame {W O B value inner : Nat} (hv : value < 2 ^ W)
    (hinner : ∀ j, (Mask O B).testBit j = false → inner.testBit j = false) :
    ∀ j, (Mask O B).testBit j = false →
      (((value &&& ((2 ^ W - 1) ^^^ Mask O B)) ||| inner) % 2 ^ W).testBit j =
        value.testBit j := by
  intro j hj
  by_cases hjW : j < W
  · simp [Nat.testBit_mod_two_pow, hjW, Nat.testBit_or, Nat.testBit_and, Nat.testBit_xor,
      Nat.testBit_two_pow_sub_one, hj, hinner j hj]
  · have h1 : value.testBit j = false :=
      Nat.testBit_lt_two_pow
        (lt_of_lt_of_le hv (Nat.pow_le_pow_right (by norm_num) (by omega)))
    simp [Nat.testBit_mod_two_pow, hjW, h1]

theorem shiftLeft_outside_mask {O B v : Nat} (hv : v < 2 ^ B) :
    ∀ j, (Mask O B).testBit j = false → (v <<< O).testBit j = false := by
  intro j hj
  rw [Mask_testBit_eq_false_iff] at hj
  rw [Nat.testBit_shiftLeft]
  rcases hj with hj | hj
  · have hO : ¬(j ≥ O) := by omega
    simp [hO]
  · have hb : v.testBit (j - O) = false :=
      Nat.testBit_lt_two_pow
        (lt_of_lt_of_le hv (Nat.pow_le_pow_right (by norm_num) (by omega)))
    simp [hb]

theorem and_mask_outside {t O B : Nat} :
    ∀ j, (Mask O B).testBit j = false → (t &&& Mask O B).testBit j = false := by
  intro j hj
  simp [Nat.testBit_and, hj]

theorem set_frame {W O B value v : Nat} (hv : value < 2 ^ W) (hvB : v ≤ Maximum B) :
    ∀ j, (Mask O B).testBit j = false →
      (set W O B value v).testBit j = value.testBit j := by
  have hvB2 : v < 2 ^ B := by
    rw [Maximum_eq] at hvB
    have := Nat.two_pow_pos B
    omega
  intro j hj
  simp only [set]
  exact masked_or_frame hv (shiftLeft_outside_mask hvB2) j hj

theorem setWrapped_frame {W O B value v : Nat} (hv : value < 2 ^ W) :
    ∀ j, (Mask O B).testBit j = false →
      (setWrapped W O B value v).testBit j = value.testBit j := by
  intro j hj
  simp only [setWrapped]
  refine masked_or_frame hv (shiftLeft_outside_mask ?_) j hj
  rw [Maximum_eq, Nat.and_pow_two_sub_one_eq_mod]
  exact Nat.mod_lt v (Nat.two_pow_pos B)

theorem addWrapped_frame {W O B value v : Nat} (hv : value < 2 ^ W) :
    ∀ j, (Mask O B).testBit j = false →
      (addWrapped W O B value v).testBit j = value.testBit j := by
  intro j hj
  simp only [addWrapped]
  exact masked_or_frame hv (fun k hk => and_mask_outside k hk) j hj

theorem subWrapped_frame {W O B value v : Nat} (hv : value < 2 ^ W) :
    ∀ j, (Mask O B).testBit j = false →
      (subWrapped W O B value v).testBit j = value.testBit j := by
  intro j hj
  simp only [subWrapped]
  exact masked_or_frame hv (fun k hk => and_mask_outside k hk) j hj

theorem add_frame {W O B value v : Nat} (hOB : O + B ≤ W) (hv : value < 2 ^ W)
    (hpre : get O B value + v ≤ Maximum B) :
    ∀ j, (Mask O B).testBit j = false →
      (add W O B value v).testBit j = value.testBit j := by
  rw [get_eq_div_mod, Maximum_eq] at hpre
  have hbound : value % 2 ^ (O + B) + v * 2 ^ O < 2 ^ (O + B) := field_bound_add hpre
  have hlt : value + v * 2 ^ O < 2 ^ W := no_carry_lt hOB hv hbound
  intro j hj
  simp only [add, Nat.shiftLeft_eq]
  rw [Nat.mod_eq_of_lt hlt]
  refine frame_of_mod_div ?_ ?_ j hj
  · exact Nat.add_mul_mod_self_right value v (2 ^ O)
  · exact add_div_of_bound (Nat.two_pow_pos _) hbound

theorem sub_frame {W O B value v : Nat} (hOB : O + B ≤ W) (hv : value < 2 ^ W)
    (hpre : v ≤ get O B value) :
    ∀ j, (Mask O B).testBit j = false →
      (sub W O B value v).testBit j = value.testBit j := by
  rw [get_eq_div_mod] at hpre
  have hbound : v * 2 ^ O ≤ value % 2 ^ (O + B) := field_bound_sub hpre
  have hmle : value % 2 ^ (O + B) ≤ value := Nat.mod_le _ _
  have hsle : v * 2 ^ O ≤ value := le_trans hbound hmle
  have hslt : v * 2 ^ O < 2 ^ W := by
    have h1 : value % 2 ^ (O + B) < 2 ^ (O + B) := Nat.mod_lt value (Nat.two_pow_pos _)
    have h2 : 2 ^ (O + B) ≤ 2 ^ W := Nat.pow_le_pow_right (by norm_num) hOB
    omega
  intro j hj
  simp only [sub, Nat.shiftLeft_eq]
  rw [wrap_sub_eq hv hslt hsle]
  refine frame_of_mod_div ?_ ?_ j hj
  · exact sub_multiple_mod ⟨v, Nat.mul_comm v (2 ^ O)⟩ hsle
  · exact sub_div_of_bound (Nat.two_pow_pos _) hbound

theorem set_get {W O B value v : Nat} (hOB : O + B ≤ W) (hvB : v ≤ Maximum B) :
    get O B (set W O B value v) = v := by
  have hvB2 : v < 2 ^ B := by
    rw [Maximum_eq] at hvB
    have := Nat.two_pow_pos B
    omega
  apply Nat.eq_of_testBit_eq
  intro j
  by_cases hj : j < B
  · have hOjW : O + j < W := by omega
    have hOle : O ≤ O + j := Nat.le_add_right O j
    have hsub : O + j - O = j := by omega
    have hmaskbit : (Mask O B).testBit (O + j) = true := by
      rw [testBit_Mask, hsub]
      simp [hOle, hj]
    rw [testBit_get]
    simp only [set, Nat.testBit_mod_two_pow, Nat.testBit_or, Nat.testBit_and,
      Nat.testBit_xor, Nat.testBit_two_pow_sub_one, Nat.testBit_shiftLeft, hmaskbit]
    simp [hOjW, hOle, hsub, hj]
  · rw [testBit_get]
    have hvj : v.testBit j = false :=
      Nat.testBit_lt_two_pow
        (lt_of_lt_of_le hvB2 (Nat.pow_le_pow_right (by norm_num) (by omega)))
    simp [hj, hvj]

theorem setWrapped_get {W O B value v : Nat} (hOB : O + B ≤ W) :
    get O B (setWrapped W O B value v) = v % 2 ^ B := by
  have h1 : setWrapped W O B value v = set W O B value (v &&& Maximum B) := rfl
  have hle : v &&& Maximum B ≤ Maximum B := by
    rw [Maximum_eq, Nat.and_pow_two_sub_one_eq_mod]
    have := Nat.mod_lt v (Nat.two_pow_pos B)
    omega
  rw [h1, set_get hOB hle, Maximum_eq, Nat.and_pow_two_sub_one_eq_mod]

/-- A field whose bit range is untouched reads back unchanged. -/
theorem other_field_get {O B O2 B2 x value : Nat}
    (hdisj : O2 + B2 ≤ O ∨ O + B ≤ O2)
    (hagree : ∀ j, (Mask O B).testBit j = false → x.testBit j = value.testBit j) :
    get O2 B2 x = get O2 B2 value := by
  apply Nat.eq_of_testBit_eq
  intro j
  rw [testBit_get, testBit_get]
  by_cases hj : j < B2
  · rw [hagree (O2 + j) (by rw [Mask_testBit_eq_false_iff]; omega)]
  · simp [hj]

end BitFieldMember

namespace BitFieldArray

/-- Each array accessor is the scalar-member accessor at the computed
per-element offset; the bodies are literally the same expressions. -/
theorem get_eq_member (bO bpi value i : Nat) :
    get bO bpi value i = BitFieldMember.get (offset bO bpi i) bpi value := rfl

theorem set_eq_member (W bO bpi value i v : Nat) :
    set W bO bpi value i v = BitFieldMember.set W (offset bO bpi i) bpi value v := rfl

theorem setWrapped_eq_member (W bO bpi value i v : Nat) :
    setWrapped W bO bpi value i v =
      BitFieldMember.setWrapped W (offset bO bpi i) bpi value v := rfl

theorem add_eq_member (W bO bpi value i v : Nat) :
    add W bO bpi value i v = BitFieldMember.add W (offset bO bpi i) bpi value v := rfl

theorem addWrapped_eq_member (W bO bpi value i v : Nat) :
    addWrapped W bO bpi value i v =
      BitFieldMember.addWrapped W (offset bO bpi i) bpi value v := rfl

theorem sub_eq_member (W bO bpi value i v : Nat) :
    sub W bO bpi value i v = BitFieldMember.sub W (offset bO bpi i) bpi value v := rfl

theorem subWrapped_eq_member (W bO bpi value i v : Nat) :
    subWrapped W bO bpi value i v =
      BitFieldMember.subWrapped W (offset bO bpi i) bpi value v := rfl

/-- An in-range element of an in-bounds array lies within the word. -/
theorem offset_bound {W bO bpi N i : Nat} (hiN : i < N)
    (hArr : bO + bpi * N ≤ W) : offset bO bpi i + bpi ≤ W := by
  simp only [offset]
  have h : bpi * i + bpi ≤ bpi * N := by
    calc bpi * i + bpi = bpi * (i + 1) := by ring
      _ ≤ bpi * N := Nat.mul_le_mul_left _ (by omega)
  omega

end BitFieldArray

/-- C6: for a field of width `B` at offset `O` in a `W`-bit word, and
for any word contents, `set v` followed by `get` returns exactly `v`
whenever `v` fits the field, and `setWrapped v` followed by `get`
returns `v mod 2^B` for every `v`; the same holds for an in-range
element `i` of a declared bit-field array. -/
theorem bitfield_set_get_roundtrip (W O B N i value v : Nat)
    (hOB : O + B ≤ W) (hiN : i < N) (hArr : O + B * N ≤ W) :
    (v ≤ BitFieldMember.Maximum B →
      BitFieldMember.get O B (BitFieldMember.set W O B value v) = v) ∧
    BitFieldMember.get O B (BitFieldMember.setWrapped W O B value v) = v % 2 ^ B ∧
    (v ≤ BitFieldArray.Maximum B →
      BitFieldArray.get O B (BitFieldArray.set W O B value i v) i = v) ∧
    BitFieldArray.get O B (BitFieldArray.setWrapped W O B value i v) i = v % 2 ^ B := by
  have hoff : BitFieldArray.offset O B i + B ≤ W := BitFieldArray.offset_bound hiN hArr
  refine ⟨fun hv => BitFieldMember.set_get hOB hv, BitFieldMember.setWrapped_get hOB,
    fun hv => ?_, ?_⟩
  · rw [BitFieldArray.get_eq_member, BitFieldArray.set_eq_member]
    exact BitFieldMember.set_get hoff hv
  · rw [BitFieldArray.get_eq_member, BitFieldArray.setWrapped_eq_member]
    exact BitFieldMember.setWrapped_get hoff

/-- Witness for C6: a 8-bit field at offset 4 of a 32-bit word holding
0xdeadbeef, and element 1 of a 3-element array of 8-bit fields based at
offset 4, both set to 92. -/
theorem bitfield_set_get_roundtrip_witness :
    BitFieldMember.get 4 8 (BitFieldMember.set 32 4 8 3735928559 92) = 92 ∧
    BitFieldArray.get 4 8 (BitFieldArray.set 32 4 8 3735928559 1 92) 1 = 92 :=
  ⟨(bitfield_set_get_roundtrip 32 4 8 3 1 3735928559 92 (by decide) (by decide)
      (by decide)).1 (by decide),
    (bitfield_set_get_roundtrip 32 4 8 3 1 3735928559 92 (by decide) (by decide)
      (by decide)).2.2.1 (by decide)⟩

namespace BitFieldArray

/-- The assertion guarding array `set` (bitfield.h:127):
`assert(v <= Maximum)`. -/
def setPre (bpi v : Nat) : Bool := decide (v ≤ Maximum bpi)

/-- The assertion guarding array `add` (bitfield.h:138):
`assert(get(i) + v <= Maximum)`. -/
def addPre (bO bpi value i v : Nat) : Bool :=
  decide (get bO bpi value i + v ≤ Maximum bpi)

/-- The assertion guarding array `sub` (bitfield.h:150):
`assert(get(i) >= v)`. -/
def subPre (bO bpi value i v : Nat) : Bool :=
  decide (get bO bpi value i ≥ v)

end BitFieldArray

/-- `x` agrees with `value` on every bit outside the mask of the field
of width `B` at offset `O`: all the bits the field update is allowed to
touch are inside that mask. -/
def AgreesOutside (O B x value : Nat) : Prop :=
  ∀ j, (BitFieldMember.Mask O B).testBit j = false → x.testBit j = value.testBit j

/-- C7: every update of one field (or one array element) — `set`,
`setWrapped`, `add`, `addWrapped`, `sub`, `subWrapped`, each under its
assertion where it has one — leaves every bit outside that field's mask
unchanged; consequently the `get` of any other field with a disjoint
bit range, and of any other element of the same array, is unchanged. -/
theorem bitfield_update_frame (W O B N i O2 B2 value v : Nat)
    (hOB : O + B ≤ W) (hv : value < 2 ^ W) (hiN : i < N) (hArr : O + B * N ≤ W) :
    (BitFieldMember.setPre B v = true →
      AgreesOutside O B (BitFieldMember.set W O B value v) value) ∧
    AgreesOutside O B (BitFieldMember.setWrapped W O B value v) value ∧
    (BitFieldMember.addPre O B value v = true →
      AgreesOutside O B (BitFieldMember.add W O B value v) value) ∧
    AgreesOutside O B (BitFieldMember.addWrapped W O B value v) value ∧
    (BitFieldMember.subPre O B value v = true →
      AgreesOutside O B (BitFieldMember.sub W O B value v) value) ∧
    AgreesOutside O B (BitFieldMember.subWrapped W O B value v) value ∧
    (BitFieldArray.setPre B v = true →
      AgreesOutside (BitFieldArray.offset O B i) B
        (BitFieldArray.set W O B value i v) value) ∧
    AgreesOutside (BitFieldArray.offset O B i) B
      (BitFieldArray.setWrapped W O B value i v) value ∧
    (BitFieldArray.addPre O B value i v = true →
      AgreesOutside (BitFieldArray.offset O B i) B
        (BitFieldArray.add W O B value i v) value) ∧
    AgreesOutside (BitFieldArray.offset O B i) B
      (BitFieldArray.addWrapped W O B value i v) value ∧
    (BitFieldArray.subPre O B value i v = true →
      AgreesOutside (BitFieldArray.offset O B i) B
        (BitFieldArray.sub W O B value i v) value) ∧
    AgreesOutside (BitFieldArray.offset O B i) B
      (BitFieldArray.subWrapped W O B value i v) value ∧
    (∀ x, AgreesOutside O B x value → O2 + B2 ≤ O ∨ O + B ≤ O2 →
      BitFieldMember.get O2 B2 x = BitFieldMember.get O2 B2 value) ∧
    (∀ x i2, AgreesOutside (BitFieldArray.offset O B i) B x value →
      i2 < N → i2 ≠ i →
      BitFieldArray.get O B x i2 = BitFieldArray.get O B value i2) := by
  have hoff : BitFieldArray.offset O B i + B ≤ W := BitFieldArray.offset_bound hiN hArr
  refine ⟨fun hp => BitFieldMember.set_frame hv (of_decide_eq_true hp),
    BitFieldMember.setWrapped_frame hv,
    fun hp => BitFieldMember.add_frame hOB hv (of_decide_eq_true hp),
    BitFieldMember.addWrapped_frame hv,
    fun hp => BitFieldMember.sub_frame hOB hv (of_decide_eq_true hp),
    BitFieldMember.subWrapped_frame hv,
    fun hp => ?_, ?_, fun hp => ?_, ?_, fun hp => ?_, ?_,
    fun x hagree hdisj => BitFieldMember.other_field_get hdisj hagree,
    fun x i2 hagree hi2N hne => ?_⟩
  · rw [BitFieldArray.set_eq_member]
    exact BitFieldMember.set_frame hv (of_decide_eq_true hp)
  · rw [BitFieldArray.setWrapped_eq_member]
    exact BitFieldMember.setWrapped_frame hv
  · rw [BitFieldArray.add_eq_member]
    exact BitFieldMember.add_frame hoff hv (of_decide_eq_true hp)
  · rw [BitFieldArray.addWrapped_eq_member]
    exact BitFieldMember.addWrapped_frame hv
  · rw [BitFieldArray.sub_eq_member]
    exact BitFieldMember.sub_frame hoff hv (of_decide_eq_true hp)
  · rw [BitFieldArray.subWrapped_eq_member]
    exact BitFieldMember.subWrapped_frame hv
  · rw [BitFieldArray.get_eq_member, BitFieldArray.get_eq_member]
    refine BitFieldMember.other_field_get ?_ hagree
    simp only [BitFieldArray.offset]
    rcases Nat.lt_or_ge i2 i with h | h
    · left
      have h2 : B * (i2 + 1) ≤ B * i := Nat.mul_le_mul_left _ (by omega)
      have h3 : B * (i2 + 1) = B * i2 + B := by ring
      omega
    · right
      have hgt : i < i2 := by omega
      have h2 : B * (i + 1) ≤ B * i2 := Nat.mul_le_mul_left _ (by omega)
      have h3 : B * (i + 1) = B * i + B := by ring
      omega

/-- Witness for C7: adding 3 to the 8-bit field at offset 4 of a 32-bit
word holding 0xdeadbeef leaves the disjoint 8-bit field at offset 16
unchanged. -/
theorem bitfield_update_frame_witness :
    BitFieldMember.get 16 8 (BitFieldMember.add 32 4 8 3735928559 3) =
      BitFieldMember.get 16 8 3735928559 := by
  have h := bitfield_update_frame 32 4 8 3 1 16 8 3735928559 3 (by decide) (by decide)
    (by decide) (by decide)
  exact h.2.2.2.2.2.2.2.2.2.2.2.2.1 (BitFieldMember.add 32 4 8 3735928559 3)
    (h.2.2.1 (by decide)) (by decide)

/-- C8 counterexample: the static_assert conditions do not implement the
claimed constraint set.  A scalar field of width 0 violates the claimed
lower bound `0 < width`, yet both compile-time checks of
`BitFieldMember` (bitfield.h:34-35) hold, so the declaration is
accepted; and a one-element array of 32-bit fields in a 32-bit word
satisfies the claimed array constraint `baseOffset + width*count <= W`,
yet `BitFieldArray` (bitfield.h:97-98) rejects it because its element
width equals the word width. -/
theorem bitfield_acceptance_counterexample :
    (BitFieldMember.accepted 32 0 0 = true ∧ ¬(0 < 0)) ∧
    (BitFieldArray.accepted 32 0 32 1 = false ∧ 0 + 32 * 1 ≤ 32) := by decide

/-- C8 (amended): a declaration is rejected at compile time exactly when
a scalar field violates `offset + width <= W` or `width < W`, or an
array violates `baseOffset + width*count <= W` or `width < W`; there is
no `0 < width` lower bound, so zero-width fields are accepted, and a
full-word-width array element is rejected even when its span fits.
Every accepted scalar layout supports the set/get round trip. -/
theorem bitfield_accept_iff (W O B bO bpi N : Nat) :
    (BitFieldMember.accepted W O B = true ↔ (O + B ≤ W ∧ B < W)) ∧
    (BitFieldArray.accepted W bO bpi N = true ↔ (bO + bpi * N ≤ W ∧ bpi < W)) ∧
    (BitFieldMember.accepted W O B = true →
      ∀ value v, v ≤ BitFieldMember.Maximum B →
        BitFieldMember.get O B (BitFieldMember.set W O B value v) = v) := by
  refine ⟨?_, ?_, ?_⟩
  · simp [BitFieldMember.accepted]
  · simp [BitFieldArray.accepted]
  · intro hacc value v hv
    have h : O + B ≤ W ∧ B < W := by simpa [BitFieldMember.accepted] using hacc
    exact BitFieldMember.set_get h.1 hv

/-- Witness for C8 (amended) at a concrete accepted layout: an 8-bit
field at offset 4 of a 32-bit word. -/
theorem bitfield_accept_iff_witness :
    BitFieldMember.accepted 32 4 8 = true ∧
    BitFieldMember.get 4 8 (BitFieldMember.set 32 4 8 0 17) = 17 := by
  have h := bitfield_accept_iff 32 4 8 0 4 8
  exact ⟨(h.1).mpr (by decide), h.2.2 (by decide) 0 17 (by decide)⟩
